import Mathlib

/-!
Verification of the Research Assistant Agent (LangGraph ReAct implementation).

The repository ships `src/main.py` (the CLI entry point) together with its
unit/integration test suites.  The library modules the tests exercise
(`src.safety`, `src.tools`, `src.state`, `src.nodes`, `src.graph`,
`src.config`) are not part of the source tree we were given, so the
corresponding components — the Safety Subsystem, the token-bucket Rate
Limiter, the Structured Output Parser and the workflow retry loop — are
modelled here from the specification's own words (each such definition is
marked `Modelled from the spec:`).  `main.py`'s exception handling is
embedded directly from the source.

Floating-point confidences, token counts and timestamps are modelled as
rationals (`ℚ`); every value the claims mention (0.9, 0.3, 0.5, 2.0, …) is
exactly representable, so no rounding questions arise.
-/

/-- Modelled from the spec (§3 Data Model, `src.state.SafetyCheck` is absent
from the tree): a safety check record with `is_safe`, `reason`,
`confidence` (rational stand-in for the float in `[0,1]`) and
`flagged_content`. -/
structure SafetyCheck where
  is_safe : Bool
  reason : String
  confidence : ℚ
  flagged_content : List String
deriving DecidableEq, Repr

/-- Modelled from the spec (§4.3 Safety Aggregator, `src.safety.SafetyValidator.aggregate_safety_checks`
is absent from the tree): `is_safe` is the conjunction of the members'
flags, `confidence` the minimum member confidence, `reason` concatenates the
reasons of failing checks (a success reason when no check fails), and
`flagged_content` is the union (as concatenation) of the members' flagged
items.  The empty list aggregates to a safe check. -/
def aggregate_safety_checks : List SafetyCheck → SafetyCheck
  | [] => ⟨true, "All safety checks passed", 1, []⟩
  | c :: cs =>
      let checks := c :: cs
      let failing := checks.filter (fun x => !x.is_safe)
      { is_safe := checks.all (fun x => x.is_safe)
        reason :=
          if failing.isEmpty then "All safety checks passed"
          else String.intercalate "; " (failing.map (fun x => x.reason))
        confidence := (cs.map (fun x => x.confidence)).foldr min c.confidence
        flagged_content := checks.foldr (fun x acc => x.flagged_content ++ acc) [] }

lemma foldr_min_le_init (l : List ℚ) (a : ℚ) : l.foldr min a ≤ a := by
  induction l with
  | nil => simp
  | cons x xs ih => exact le_trans (min_le_right _ _) ih

lemma foldr_min_le_mem (l : List ℚ) (a : ℚ) {x : ℚ} (hx : x ∈ l) :
    l.foldr min a ≤ x := by
  induction l with
  | nil => cases hx
  | cons y ys ih =>
    rcases List.mem_cons.mp hx with h | h
    · subst h; exact min_le_left _ _
    · exact le_trans (min_le_right _ _) (ih h)

lemma foldr_min_attained (l : List ℚ) (a : ℚ) :
    l.foldr min a = a ∨ l.foldr min a ∈ l := by
  induction l with
  | nil => left; rfl
  | cons x xs ih =>
    rcases le_total x (xs.foldr min a) with h | h
    · right
      simp only [List.foldr_cons, min_eq_left h]
      exact List.mem_cons_self x xs
    · rcases ih with h' | h'
      · left
        simp only [List.foldr_cons, min_eq_right h, h', min_eq_right (h' ▸ h)]
      · right
        simp only [List.foldr_cons, min_eq_right h]
        exact List.mem_cons_of_mem x h'

lemma mem_foldr_append {α : Type} (checks : List SafetyCheck) (a : α)
    (f : SafetyCheck → List α) :
    a ∈ checks.foldr (fun x acc => f x ++ acc) [] ↔ ∃ c ∈ checks, a ∈ f c := by
  induction checks with
  | nil => simp
  | cons c cs ih => simp [List.mem_append, ih]

/-- C2: For every list of Safety Checks, the aggregate's `is_safe` is the
conjunction of the members' `is_safe` flags, its `confidence` is the
minimum member confidence (never exceeding any member's confidence, and
attained by some member when the list is nonempty), its `flagged_content`
is the union of the members' flagged items, and the empty list aggregates
to a safe check. -/
theorem aggregate_safety_checks_spec (checks : List SafetyCheck) :
    (aggregate_safety_checks checks).is_safe = checks.all (fun x => x.is_safe) ∧
    (∀ x ∈ checks, (aggregate_safety_checks checks).confidence ≤ x.confidence) ∧
    (checks ≠ [] → ∃ x ∈ checks,
      (aggregate_safety_checks checks).confidence = x.confidence) ∧
    (∀ a, a ∈ (aggregate_safety_checks checks).flagged_content ↔
      ∃ c ∈ checks, a ∈ c.flagged_content) ∧
    (aggregate_safety_checks []).is_safe = true := by
  match checks with
  | [] =>
    refine ⟨rfl, ?_, ?_, ?_, rfl⟩
    · intro x hx; cases hx
    · intro h; exact absurd rfl h
    · intro a; simp [aggregate_safety_checks]
  | c :: cs =>
    refine ⟨rfl, ?_, ?_, ?_, rfl⟩
    · intro x hx
      show (cs.map (fun x => x.confidence)).foldr min c.confidence ≤ x.confidence
      rcases List.mem_cons.mp hx with h | h
      · subst h; exact foldr_min_le_init _ _
      · exact foldr_min_le_mem _ _ (List.mem_map_of_mem (fun x => x.confidence) h)
    · intro _
      show ∃ x ∈ c :: cs,
        (cs.map (fun x => x.confidence)).foldr min c.confidence = x.confidence
      rcases foldr_min_attained (cs.map (fun x => x.confidence)) c.confidence with h | h
      · exact ⟨c, List.mem_cons_self c cs, h⟩
      · rcases List.mem_map.mp h with ⟨x, hx, hxe⟩
        exact ⟨x, List.mem_cons_of_mem c hx, hxe.symm⟩
    · intro a
      show a ∈ (c :: cs).foldr (fun x acc => x.flagged_content ++ acc) [] ↔ _
      exact mem_foldr_append (c :: cs) a (fun x => x.flagged_content)

/-- Witness for `aggregate_safety_checks_spec`: the minimum-attained clause
holds at a concrete nonempty list. -/
theorem aggregate_safety_checks_spec_witness :
    ∃ x ∈ [SafetyCheck.mk true "a" (9/10) [], SafetyCheck.mk false "b" (3/10) ["kw"]],
      (aggregate_safety_checks
        [SafetyCheck.mk true "a" (9/10) [], SafetyCheck.mk false "b" (3/10) ["kw"]]).confidence
        = x.confidence :=
  (aggregate_safety_checks_spec
    [SafetyCheck.mk true "a" (9/10) [], SafetyCheck.mk false "b" (3/10) ["kw"]]).2.2.1
    (by decide)

/-- Modelled from the spec (§4.4 Rate Limiter, `src.safety.TokenBucket` is
absent from the tree): token-bucket state.  Timestamps and token counts are
rationals; the wall clock is passed explicitly as `now`. -/
structure TokenBucket where
  capacity : ℚ
  tokens : ℚ
  refill_rate : ℚ
  last_refill : ℚ
deriving DecidableEq, Repr

namespace TokenBucket

/-- Modelled from the spec: a freshly constructed bucket starts full
(`consume(n)` immediately after construction succeeds for every
`n ≤ capacity`). -/
def init (capacity refill_rate now : ℚ) : TokenBucket :=
  ⟨capacity, capacity, refill_rate, now⟩

/-- Modelled from the spec: `tokens = min(capacity, tokens + elapsed_seconds * refill_rate)`. -/
def refill (b : TokenBucket) (now : ℚ) : TokenBucket :=
  { b with
    tokens := min b.capacity (b.tokens + (now - b.last_refill) * b.refill_rate)
    last_refill := now }

/-- Modelled from the spec: `consume(n)` first refills, then atomically
succeeds and decrements by `n` only if `tokens ≥ n`; otherwise fails
without side effects (the refilled count is left undisturbed). -/
def consume (b : TokenBucket) (n : ℚ) (now : ℚ) : Bool × TokenBucket :=
  let b' := b.refill now
  if n ≤ b'.tokens then (true, { b' with tokens := b'.tokens - n })
  else (false, b')

/-- Modelled from the spec: `wait_time(n)` returns `0` if `n` tokens are
already available after refilling, else `(n - tokens) / refill_rate`
computed from the current (refilled) token count. -/
def wait_time (b : TokenBucket) (n : ℚ) (now : ℚ) : ℚ :=
  let b' := b.refill now
  if n ≤ b'.tokens then 0 else (n - b'.tokens) / b.refill_rate

end TokenBucket

/-- C3: `consume(n)` first refills; it succeeds and decrements the refilled
count by `n` exactly when that count is at least `n`, and otherwise fails
leaving the (refilled) token count unchanged.  Immediately after
construction `consume(n)` succeeds for any `n ≤ capacity`, and a bucket
drained to `0` fails `consume(1)` until the accrued refill reaches one
token (and succeeds once it does, capacity permitting). -/
theorem consume_spec (b : TokenBucket) (n now : ℚ) :
    (n ≤ (b.refill now).tokens →
      b.consume n now =
        (true, { b.refill now with tokens := (b.refill now).tokens - n })) ∧
    ((b.refill now).tokens < n →
      b.consume n now = (false, b.refill now)) ∧
    (∀ cap rate t₀ m : ℚ, m ≤ cap →
      ((TokenBucket.init cap rate t₀).consume m t₀).1 = true) ∧
    (b.tokens = 0 → (now - b.last_refill) * b.refill_rate < 1 →
      (b.consume 1 now).1 = false) ∧
    (b.tokens = 0 → 1 ≤ (now - b.last_refill) * b.refill_rate →
      1 ≤ b.capacity → (b.consume 1 now).1 = true) := by
  refine ⟨?_, ?_, ?_, ?_, ?_⟩
  · intro h
    simp only [TokenBucket.consume, if_pos h]
  · intro h
    simp only [TokenBucket.consume, if_neg (not_le.mpr h)]
  · intro cap rate t₀ m hm
    simp only [TokenBucket.consume, TokenBucket.refill, TokenBucket.init,
      sub_self, zero_mul, add_zero, min_self]
    rw [if_pos hm]
  · intro h0 hacc
    have hlt : (b.refill now).tokens < 1 := by
      calc (b.refill now).tokens
          ≤ b.tokens + (now - b.last_refill) * b.refill_rate := min_le_right _ _
        _ < 1 := by rw [h0, zero_add]; exact hacc
    simp only [TokenBucket.consume, if_neg (not_le.mpr hlt)]
  · intro h0 hacc hcap
    have hge : 1 ≤ (b.refill now).tokens := by
      refine le_min hcap ?_
      rw [h0, zero_add]; exact hacc
    simp only [TokenBucket.consume, if_pos hge]

/-- Witness for `consume_spec`: each hypothetical clause discharged at a
concrete bucket (capacity 5, rate 2, drained buckets probed before and
after a full token has accrued). -/
theorem consume_spec_witness :
    (TokenBucket.init 5 2 0).consume 3 0 =
      (true, { (TokenBucket.init 5 2 0).refill 0 with
                 tokens := ((TokenBucket.init 5 2 0).refill 0).tokens - 3 }) ∧
    (TokenBucket.init 0 2 0).consume 1 0 = (false, (TokenBucket.init 0 2 0).refill 0) ∧
    ((TokenBucket.init 5 2 0).consume 4 0).1 = true ∧
    ((⟨5, 0, 2, 0⟩ : TokenBucket).consume 1 (1/4)).1 = false ∧
    ((⟨5, 0, 2, 0⟩ : TokenBucket).consume 1 1).1 = true :=
  ⟨(consume_spec (TokenBucket.init 5 2 0) 3 0).1
     (by norm_num [TokenBucket.refill, TokenBucket.init]),
   (consume_spec (TokenBucket.init 0 2 0) 1 0).2.1
     (by norm_num [TokenBucket.refill, TokenBucket.init]),
   (consume_spec (TokenBucket.init 5 2 0) 4 0).2.2.1 5 2 0 4 (by norm_num),
   (consume_spec (⟨5, 0, 2, 0⟩ : TokenBucket) 1 (1/4)).2.2.2.1 rfl (by norm_num),
   (consume_spec (⟨5, 0, 2, 0⟩ : TokenBucket) 1 1).2.2.2.2 rfl (by norm_num) (by norm_num)⟩

/-- C4: concrete scenario — capacity 5, refill rate 2.0: `consume(3)` and
`consume(2)` succeed, `consume(1)` then fails, and `wait_time(1)` reports
0.5 seconds. -/
theorem token_bucket_scenario :
    ((TokenBucket.init 5 2 0).consume 3 0).1 = true ∧
    (((TokenBucket.init 5 2 0).consume 3 0).2.consume 2 0).1 = true ∧
    ((((TokenBucket.init 5 2 0).consume 3 0).2.consume 2 0).2.consume 1 0).1 = false ∧
    ((((TokenBucket.init 5 2 0).consume 3 0).2.consume 2 0).2.wait_time 1 0) = 1/2 := by
  norm_num [TokenBucket.init, TokenBucket.consume, TokenBucket.refill, TokenBucket.wait_time]

lemma refill_tokens_mono (b b₂ : TokenBucket) (now : ℚ)
    (hcap : b₂.capacity = b.capacity) (hrate : b₂.refill_rate = b.refill_rate)
    (hlast : b₂.last_refill = b.last_refill) (htok : b.tokens ≤ b₂.tokens) :
    (b.refill now).tokens ≤ (b₂.refill now).tokens := by
  simp only [TokenBucket.refill, hcap, hrate, hlast]
  exact min_le_min le_rfl (add_le_add_right htok _)

/-- C5: with a positive refill rate, `wait_time(n)` is `0` exactly when
`consume(n)` would currently succeed; on failure it equals
`(n - tokens) / refill_rate` computed from the refilled token count; and it
is monotonically non-increasing in the bucket's token count (all other
fields equal). -/
theorem wait_time_spec (b : TokenBucket) (n now : ℚ) (hrate : 0 < b.refill_rate) :
    (b.wait_time n now = 0 ↔ (b.consume n now).1 = true) ∧
    ((b.consume n now).1 = false →
      b.wait_time n now = (n - (b.refill now).tokens) / b.refill_rate) ∧
    (∀ b₂ : TokenBucket, b₂.capacity = b.capacity →
      b₂.refill_rate = b.refill_rate → b₂.last_refill = b.last_refill →
      b.tokens ≤ b₂.tokens → b₂.wait_time n now ≤ b.wait_time n now) := by
  refine ⟨?_, ?_, ?_⟩
  · by_cases h : n ≤ (b.refill now).tokens
    · simp only [TokenBucket.wait_time, TokenBucket.consume, if_pos h]
    · simp only [TokenBucket.wait_time, TokenBucket.consume, if_neg h]
      constructor
      · intro h0
        exfalso
        have hsub : 0 < n - (b.refill now).tokens := sub_pos.mpr (not_le.mp h)
        have : 0 < (n - (b.refill now).tokens) / b.refill_rate := div_pos hsub hrate
        exact absurd h0 (ne_of_gt this)
      · intro h1
        exact absurd h1 Bool.false_ne_true
  · intro hfail
    by_cases h : n ≤ (b.refill now).tokens
    · exfalso
      rw [show (b.consume n now).1 = true by
        simp only [TokenBucket.consume, if_pos h]] at hfail
      exact Bool.noConfusion hfail
    · simp only [TokenBucket.wait_time, if_neg h]
  · intro b₂ hcap hr hlast htok
    have hmono := refill_tokens_mono b b₂ now hcap hr hlast htok
    by_cases h : n ≤ (b.refill now).tokens
    · have h₂ : n ≤ (b₂.refill now).tokens := le_trans h hmono
      simp only [TokenBucket.wait_time, if_pos h, if_pos h₂, le_refl]
    · by_cases h₂ : n ≤ (b₂.refill now).tokens
      · simp only [TokenBucket.wait_time, if_pos h₂, if_neg h]
        exact le_of_lt (div_pos (sub_pos.mpr (not_le.mp h)) hrate)
      · simp only [TokenBucket.wait_time, if_neg h, if_neg h₂, hr]
        exact (div_le_div_iff_of_pos_right hrate).mpr (sub_le_sub_left hmono n)

/-- Witness for `wait_time_spec`: the positive-rate hypothesis discharged at
a concrete drained bucket. -/
theorem wait_time_spec_witness :
    ((⟨5, 0, 2, 0⟩ : TokenBucket).wait_time 1 0 = 0 ↔
      ((⟨5, 0, 2, 0⟩ : TokenBucket).consume 1 0).1 = true) :=
  (wait_time_spec (⟨5, 0, 2, 0⟩ : TokenBucket) 1 0 (by norm_num)).1

/-- Modelled from the spec (§4.3 Content Moderator scans for substrings;
`src.safety` is absent from the tree): substring occurrence test, true iff
`pat` occurs contiguously inside `text`. -/
def containsSub {α : Type} [BEq α] : List α → List α → Bool
  | [], pat => pat.isEmpty
  | c :: rest, pat => pat.isPrefixOf (c :: rest) || containsSub rest pat

lemma containsSub_iff {α : Type} [BEq α] [LawfulBEq α] (text pat : List α) :
    containsSub text pat = true ↔ pat <:+: text := by
  induction text with
  | nil => simp [containsSub, List.infix_nil, List.isEmpty_iff]
  | cons c rest ih =>
    rw [List.infix_cons_iff]
    simp [containsSub, List.isPrefixOf_iff_prefix, ih]

/-- Modelled from the spec: case-insensitive view of a string, as the list
of its characters lower-cased. -/
def lowerStr (s : String) : List Char := s.toList.map Char.toLower

/-- Modelled from the spec (§4.3 URL Validator "extracts the registrable
domain from a URL"): scan for the `://` scheme separator. -/
def afterScheme : List Char → Option (List Char)
  | [] => none
  | ':' :: '/' :: '/' :: rest => some rest
  | _ :: rest => afterScheme rest

/-- Modelled from the spec: the host part of a URL — everything after the
scheme separator up to the first path/port/query/fragment delimiter. -/
def hostChars (cs : List Char) : List Char :=
  ((afterScheme cs).getD cs).takeWhile
    (fun c => !(c == '/') && !(c == ':') && !(c == '?') && !(c == '#'))

/-- Modelled from the spec: registrable-domain extraction from a URL. -/
def extract_domain (url : String) : String := String.mk (hostChars url.toList)

/-- Modelled from the spec (§4.3 URL Validator, `src.safety.URLValidator.validate_url`
is absent from the tree): `is_safe = domain ∈ allow-list`, confidence `0.9`
when trusted and `0.3` when not. -/
def validate_url (trusted : List String) (url : String) : SafetyCheck :=
  let domain := extract_domain url
  if domain ∈ trusted then
    ⟨true, "Trusted domain: " ++ domain, 9/10, []⟩
  else
    ⟨false, "Untrusted domain: " ++ domain, 3/10, [domain]⟩

/-- Modelled from the configuration evidence in the test suites
(`Config.TRUSTED_DOMAINS` must contain at least `wikipedia.org`,
`arxiv.org`, `github.com`, `stackoverflow.com`): a concrete allow-list for
the claims' concrete scenarios. -/
def trusted_domains : List String :=
  ["wikipedia.org", "arxiv.org", "github.com", "stackoverflow.com"]

/-- C6: the URL Validator reports `is_safe` exactly when the URL's
registrable domain is allow-listed, with confidence `0.9` for allow-listed
domains and `0.3` otherwise; concretely, with `wikipedia.org` allow-listed,
`https://wikipedia.org/wiki/AI` is safe with confidence at least `0.8` and
a URL on `suspicious-site.com` is unsafe. -/
theorem validate_url_spec (trusted : List String) (url : String) :
    ((validate_url trusted url).is_safe = true ↔ extract_domain url ∈ trusted) ∧
    (validate_url trusted url).confidence =
      (if extract_domain url ∈ trusted then (9/10 : ℚ) else 3/10) ∧
    (validate_url trusted_domains "https://wikipedia.org/wiki/AI").is_safe = true ∧
    (8/10 : ℚ) ≤ (validate_url trusted_domains "https://wikipedia.org/wiki/AI").confidence ∧
    (validate_url trusted_domains "https://suspicious-site.com/x").is_safe = false := by
  refine ⟨?_, ?_, ?_, ?_, ?_⟩
  · by_cases h : extract_domain url ∈ trusted
    · simp [validate_url, h]
    · simp [validate_url, h]
  · by_cases h : extract_domain url ∈ trusted
    · simp [validate_url, h]
    · simp [validate_url, h]
  · have h : extract_domain "https://wikipedia.org/wiki/AI" ∈ trusted_domains := by decide
    simp [validate_url, h]
  · have h : extract_domain "https://wikipedia.org/wiki/AI" ∈ trusted_domains := by decide
    simp only [validate_url, if_pos h]
    norm_num
  · have h : extract_domain "https://suspicious-site.com/x" ∉ trusted_domains := by decide
    simp [validate_url, h]

/-- Modelled from the spec (§4.3 Content Moderator "floored at a minimum
confidence when at least one match exists"; `src.safety` is absent from the
tree): the moderation confidence floor. -/
def minModerationConfidence : ℚ := 3/10

/-- Modelled from the spec: the blocked keywords that occur (case-insensitively)
in the text. -/
def flaggedKeywords (blocked : List String) (text : String) : List String :=
  blocked.filter (fun kw => containsSub (lowerStr text) (lowerStr kw))

/-- Modelled from the spec (§4.3 Content Moderator, `src.safety.ContentModerationChain.moderate_content`
is absent from the tree): case-insensitive keyword scan; `is_safe` iff no
blocked keyword matched; `flagged_content` lists every matched keyword;
`confidence` is the matched fraction of the keyword list, floored at the
minimum confidence, when at least one keyword matched. -/
def moderate_content (blocked : List String) (text : String) : SafetyCheck :=
  let flagged := flaggedKeywords blocked text
  if flagged.isEmpty then
    ⟨true, "Content passed moderation", 8/10, []⟩
  else
    ⟨false, "Content flagged for: " ++ String.intercalate ", " flagged,
      max minModerationConfidence ((flagged.length : ℚ) / (blocked.length : ℚ)),
      flagged⟩

/-- C7: the Content Moderator is safe exactly when no blocked keyword
occurs in the text under case-insensitive matching, `flagged_content`
lists exactly the blocked keywords that matched, and when at least one
keyword matched the confidence is the matched fraction of the keyword
list floored at the minimum confidence. -/
theorem moderate_content_spec (blocked : List String) (text : String) :
    ((moderate_content blocked text).is_safe = true ↔
      ∀ kw ∈ blocked, ¬ (lowerStr kw <:+: lowerStr text)) ∧
    (∀ kw, kw ∈ (moderate_content blocked text).flagged_content ↔
      kw ∈ blocked ∧ lowerStr kw <:+: lowerStr text) ∧
    ((moderate_content blocked text).flagged_content ≠ [] →
      (moderate_content blocked text).confidence =
        max minModerationConfidence
          (((moderate_content blocked text).flagged_content.length : ℚ) /
            (blocked.length : ℚ))) := by
  have hmem : ∀ kw, kw ∈ flaggedKeywords blocked text ↔
      kw ∈ blocked ∧ lowerStr kw <:+: lowerStr text := by
    intro kw
    rw [flaggedKeywords, List.mem_filter, containsSub_iff]
  by_cases hf : (flaggedKeywords blocked text).isEmpty
  · have hnil : flaggedKeywords blocked text = [] := List.isEmpty_iff.mp hf
    refine ⟨?_, ?_, ?_⟩
    · simp only [moderate_content, hnil, List.isEmpty_nil, if_true]
      constructor
      · intro _ kw hkw hinf
        have : kw ∈ flaggedKeywords blocked text := (hmem kw).mpr ⟨hkw, hinf⟩
        rw [hnil] at this
        cases this
      · intro _; trivial
    · intro kw
      simp only [moderate_content, hnil, List.isEmpty_nil, if_true]
      constructor
      · intro h; cases h
      · intro h
        have : kw ∈ flaggedKeywords blocked text := (hmem kw).mpr h
        rw [hnil] at this
        cases this
    · intro h
      simp only [moderate_content, hnil, List.isEmpty_nil, if_true] at h
      exact absurd rfl h
  · have hne : ¬ (flaggedKeywords blocked text).isEmpty = true := hf
    refine ⟨?_, ?_, ?_⟩
    · simp only [moderate_content, if_neg hne]
      constructor
      · intro h; cases h
      · intro hall
        exfalso
        have hne' : flaggedKeywords blocked text ≠ [] := fun h => hf (by rw [h]; rfl)
        rcases List.exists_cons_of_ne_nil hne' with ⟨kw, rest, hcons⟩
        have : kw ∈ flaggedKeywords blocked text := by rw [hcons]; exact List.mem_cons_self _ _
        rcases (hmem kw).mp this with ⟨hkw, hinf⟩
        exact hall kw hkw hinf
    · intro kw
      simp only [moderate_content, if_neg hne]
      exact hmem kw
    · intro _
      simp only [moderate_content, if_neg hne]

/-- Witness for `moderate_content_spec`: the confidence clause discharged
at a concrete flagged text. -/
theorem moderate_content_spec_witness :
    (moderate_content ["violence", "hate"] "Content with violence.").confidence =
      max minModerationConfidence
        (((moderate_content ["violence", "hate"] "Content with violence.").flagged_content.length : ℚ) /
          (["violence", "hate"].length : ℚ)) :=
  (moderate_content_spec ["violence", "hate"] "Content with violence.").2.2 (by decide)

/-- Outcome of `workflow.run_research` / `resume_from_checkpoint` /
`get_state_history` as observed by `main` (src/main.py lines 102-143):
either a final state dictionary, a `KeyboardInterrupt`, or some other
exception. -/
inductive WorkflowOutcome where
  | ok (currentStep : String) (isSafe : Bool) (errors : List String)
  | keyboardInterrupt
  | exception (msg : String)
deriving DecidableEq, Repr

/-- How `main` terminates: a normal return, a `sys.exit(code)`, or an
exception escaping `main` uncaught. -/
inductive MainResult where
  | returned
  | exited (code : Nat)
  | uncaught (msg : String)
deriving DecidableEq, Repr

/-- Embedded from `src/main.py` lines 86-151: after configuration
validation (lines 87-97, `sys.exit(1)` when invalid), the workflow call is
wrapped in `try/except`; `except KeyboardInterrupt` reaches `sys.exit(0)`
(lines 145-147) and `except Exception` prints the error and reaches
`sys.exit(1)` (lines 149-151); a successful workflow call lets `main`
return normally. -/
def main_run (configValid : Bool) (outcome : WorkflowOutcome) : MainResult :=
  if !configValid then MainResult.exited 1
  else
    match outcome with
    | WorkflowOutcome.ok _ _ _ => MainResult.returned
    | WorkflowOutcome.keyboardInterrupt => MainResult.exited 0
    | WorkflowOutcome.exception _ => MainResult.exited 1

/-- C10: a `KeyboardInterrupt` during the workflow call makes the program
exit with status 0; any other exception escaping the workflow call makes
it print the error and exit with status 1; no exception propagates out of
`main` uncaught. -/
theorem main_exception_handling :
    main_run true WorkflowOutcome.keyboardInterrupt = MainResult.exited 0 ∧
    (∀ msg, main_run true (WorkflowOutcome.exception msg) = MainResult.exited 1) ∧
    (∀ (cv : Bool) (o : WorkflowOutcome) (msg : String),
      main_run cv o ≠ MainResult.uncaught msg) := by
  refine ⟨rfl, fun msg => rfl, ?_⟩
  intro cv o msg
  cases cv <;> cases o <;> simp [main_run]

/-- Modelled from the spec (§3 Data Model, `src.state` is absent from the
tree): the pipeline stages of `current_step`. -/
inductive Step where
  | initialized | planning | searching | validating | synthesizing
  | safety_checking | reflecting | completed | failed
deriving DecidableEq, Repr

/-- Modelled from the spec (§3 Data Model): a search result. -/
structure SearchResult where
  url : String
  title : String
  content : String
  score : ℚ
deriving DecidableEq, Repr

/-- Modelled from the spec (§3 Data Model): a Reflexion Output record. -/
structure ReflexionOutput where
  critique : String
  identified_issues : List String
  improvement_suggestions : List String
  should_retry : Bool
deriving DecidableEq, Repr

/-- Modelled from the spec (§3 Data Model, `src.state.ResearchState` is
absent from the tree): the Research State threaded through the pipeline. -/
structure ResearchState where
  research_query : String
  current_step : Step
  plan : String
  search_queries : List String
  sources : List SearchResult
  safety_checks : List SafetyCheck
  draft : String
  errors : List String
  warnings : List String
  retry_count : Nat
  max_retries : Nat
  is_safe : Bool
deriving DecidableEq, Repr

/-- Modelled from the spec (§4.1, `src.nodes.create_initial_state` is absent
from the tree): initial state — `initialized`, zero retries, safe, empty
collections. -/
def create_initial_state (query : String) (maxRetries : Nat) : ResearchState :=
  { research_query := query
    current_step := Step.initialized
    plan := ""
    search_queries := []
    sources := []
    safety_checks := []
    draft := ""
    errors := []
    warnings := []
    retry_count := 0
    max_retries := maxRetries
    is_safe := true }

/-- Modelled from the spec (§4.2 Reflexion, `src.nodes.ResearchNodes.reflexion_node`
is absent from the tree): increments `retry_count`; if `should_retry` holds
and the incremented count is still below `max_retries`, clears
`errors`/`warnings` and restarts at `planning`; otherwise signals
`failed`. -/
def reflexion_node (out : ReflexionOutput) (s : ResearchState) : ResearchState :=
  let retry' := s.retry_count + 1
  if out.should_retry = true ∧ retry' < s.max_retries then
    { s with retry_count := retry', errors := [], warnings := [],
             current_step := Step.planning }
  else
    { s with retry_count := retry', current_step := Step.failed }

/-- Modelled from the spec (§3 invariant and §4.2): one engine transition.
Any non-terminal, non-reflexion stage leaves `retry_count`/`max_retries`
untouched (only Reflexion increments the count), and the Router may enter
`reflecting` only while `retry_count < max_retries`; from `reflecting` the
state evolves by `reflexion_node`. -/
inductive RStep : ResearchState → ResearchState → Prop where
  | stage (s s' : ResearchState)
      (hrun : s.current_step ≠ Step.reflecting ∧ s.current_step ≠ Step.completed ∧
        s.current_step ≠ Step.failed)
      (hretry : s'.retry_count = s.retry_count)
      (hmax : s'.max_retries = s.max_retries)
      (hguard : s'.current_step = Step.reflecting → s.retry_count < s.max_retries) :
      RStep s s'
  | reflex (out : ReflexionOutput) (s : ResearchState)
      (hstep : s.current_step = Step.reflecting) :
      RStep s (reflexion_node out s)

/-- States reachable from the initial state through spec transitions. -/
def ReachableFrom (init s : ResearchState) : Prop :=
  Relation.ReflTransGen RStep init s

/-- The retry invariant: the count is within budget, and strictly below it
while sitting in `reflecting` (the Router guard). -/
def RetryInv (s : ResearchState) : Prop :=
  s.retry_count ≤ s.max_retries ∧
    (s.current_step = Step.reflecting → s.retry_count < s.max_retries)

lemma reflexion_node_retry (out : ReflexionOutput) (s : ResearchState) :
    (reflexion_node out s).retry_count = s.retry_count + 1 := by
  unfold reflexion_node
  by_cases h : out.should_retry = true ∧ s.retry_count + 1 < s.max_retries
  · rw [if_pos h]
  · rw [if_neg h]

lemma reflexion_node_max (out : ReflexionOutput) (s : ResearchState) :
    (reflexion_node out s).max_retries = s.max_retries := by
  unfold reflexion_node
  by_cases h : out.should_retry = true ∧ s.retry_count + 1 < s.max_retries
  · rw [if_pos h]
  · rw [if_neg h]

lemma rstep_preserves_inv {s s' : ResearchState} (hinv : RetryInv s)
    (hstep : RStep s s') : RetryInv s' := by
  cases hstep with
  | stage s s' hrun hretry hmax hguard =>
    refine ⟨?_, ?_⟩
    · rw [hretry, hmax]; exact hinv.1
    · intro hrefl
      rw [hretry, hmax]
      exact hguard hrefl
  | reflex out s hstep =>
    have hlt : s.retry_count < s.max_retries := hinv.2 hstep
    unfold reflexion_node
    by_cases h : out.should_retry = true ∧ s.retry_count + 1 < s.max_retries
    · rw [if_pos h]
      exact ⟨le_of_lt h.2, fun hc => Step.noConfusion hc⟩
    · rw [if_neg h]
      exact ⟨Nat.succ_le_of_lt hlt, fun hc => Step.noConfusion hc⟩

lemma reachable_inv {init s : ResearchState} (h0 : RetryInv init)
    (h : ReachableFrom init s) : RetryInv s := by
  induction h with
  | refl => exact h0
  | tail _ hstep ih => exact rstep_preserves_inv ih hstep

/-- Modelled from the spec (§8 "a simulated run where the generation/search
collaborators always fail"): the Reflexion Output produced in that run —
the critique always recommends retrying. -/
def always_retry_reflexion : ReflexionOutput :=
  ⟨"Previous attempt failed", ["generation collaborator error"], ["retry"], true⟩

/-- Modelled from the spec (§4.2 and §7): one deterministic step of the
always-failing run.  Planning's generation call fails, appending an error
and routing to Reflexion (transient collaborator errors are routed to
Reflexion, §7); Reflexion then applies `reflexion_node`.  Terminal states
are fixpoints. -/
def failing_step (s : ResearchState) : ResearchState :=
  match s.current_step with
  | Step.initialized => { s with current_step := Step.planning }
  | Step.planning =>
      { s with errors := s.errors ++ ["Planning failed: generation collaborator error"],
               current_step := Step.reflecting }
  | Step.reflecting => reflexion_node always_retry_reflexion s
  | _ => s

/-- Invariant along the always-failing run: budget respected, strictly
below budget in the pre-reflexion stages, and the budget field itself is
constant. -/
def FailInv (maxR : Nat) (s : ResearchState) : Prop :=
  s.max_retries = maxR ∧ s.retry_count ≤ maxR ∧
    ((s.current_step = Step.initialized ∨ s.current_step = Step.planning ∨
        s.current_step = Step.reflecting) → s.retry_count < maxR)


lemma failing_step_initialized {s : ResearchState}
    (h : s.current_step = Step.initialized) :
    failing_step s = { s with current_step := Step.planning } := by
  unfold failing_step; rw [h]

lemma failing_step_planning {s : ResearchState}
    (h : s.current_step = Step.planning) :
    failing_step s =
      { s with errors := s.errors ++ ["Planning failed: generation collaborator error"],
               current_step := Step.reflecting } := by
  unfold failing_step; rw [h]

lemma failing_step_reflecting {s : ResearchState}
    (h : s.current_step = Step.reflecting) :
    failing_step s = reflexion_node always_retry_reflexion s := by
  unfold failing_step; rw [h]

lemma failing_step_other {s : ResearchState}
    (h1 : s.current_step ≠ Step.initialized) (h2 : s.current_step ≠ Step.planning)
    (h3 : s.current_step ≠ Step.reflecting) :
    failing_step s = s := by
  unfold failing_step
  cases hc : s.current_step <;> first
    | rfl
    | exact absurd hc h1
    | exact absurd hc h2
    | exact absurd hc h3

lemma failing_step_preserves {maxR : Nat} {s : ResearchState}
    (hinv : FailInv maxR s) : FailInv maxR (failing_step s) := by
  obtain ⟨hmax, hle, hlt⟩ := hinv
  by_cases h1 : s.current_step = Step.initialized
  · rw [failing_step_initialized h1]
    exact ⟨hmax, hle, fun _ => hlt (Or.inl h1)⟩
  · by_cases h2 : s.current_step = Step.planning
    · rw [failing_step_planning h2]
      exact ⟨hmax, hle, fun _ => hlt (Or.inr (Or.inl h2))⟩
    · by_cases h3 : s.current_step = Step.reflecting
      · rw [failing_step_reflecting h3]
        have hlt' : s.retry_count < maxR := hlt (Or.inr (Or.inr h3))
        unfold reflexion_node
        by_cases h : always_retry_reflexion.should_retry = true ∧
            s.retry_count + 1 < s.max_retries
        · rw [if_pos h]
          exact ⟨hmax, le_of_lt (hmax ▸ h.2), fun _ => hmax ▸ h.2⟩
        · rw [if_neg h]
          refine ⟨hmax, Nat.succ_le_of_lt hlt', fun hc => ?_⟩
          rcases hc with hc | hc | hc <;> exact Step.noConfusion hc
      · rw [failing_step_other h1 h2 h3]
        exact ⟨hmax, hle, hlt⟩

lemma failing_inv_iterate {maxR : Nat} {s : ResearchState} (hinv : FailInv maxR s) :
    ∀ k, FailInv maxR (failing_step^[k] s) := by
  intro k
  induction k with
  | zero => exact hinv
  | succ k ih =>
    rw [Function.iterate_succ_apply']
    exact failing_step_preserves ih

lemma failing_two_step {s : ResearchState} (hs : s.current_step = Step.planning) :
    failing_step^[2] s =
      if s.retry_count + 1 < s.max_retries then
        { s with retry_count := s.retry_count + 1,
                 errors := [], warnings := [], current_step := Step.planning }
      else
        { s with errors := s.errors ++ ["Planning failed: generation collaborator error"],
                 retry_count := s.retry_count + 1, current_step := Step.failed } := by
  have hit : failing_step^[2] s = failing_step (failing_step s) := rfl
  rw [hit, failing_step_planning hs, failing_step_reflecting rfl]
  unfold reflexion_node
  by_cases h : s.retry_count + 1 < s.max_retries
  · rw [if_pos ⟨rfl, h⟩, if_pos h]
  · rw [if_neg (fun hc => h hc.2), if_neg h]

lemma failing_loop (m : Nat) : ∀ s : ResearchState,
    s.current_step = Step.planning →
    s.retry_count + (m + 1) = s.max_retries →
    (failing_step^[2*(m+1)] s).current_step = Step.failed ∧
    (failing_step^[2*(m+1)] s).retry_count = s.max_retries ∧
    (failing_step^[2*(m+1)] s).max_retries = s.max_retries := by
  induction m with
  | zero =>
    intro s hs hm
    have h2 : (2*(0+1)) = 2 := rfl
    rw [h2, failing_two_step hs, if_neg (by omega)]
    refine ⟨rfl, ?_, rfl⟩
    show s.retry_count + 1 = s.max_retries
    omega
  | succ m ih =>
    intro s hs hm
    have hsplit : 2*(m+1+1) = 2*(m+1) + 2 := by ring
    rw [hsplit, Function.iterate_add_apply, failing_two_step hs, if_pos (by omega)]
    exact ih { s with retry_count := s.retry_count + 1, errors := [],
                      warnings := [], current_step := Step.planning }
      rfl (by show s.retry_count + 1 + (m+1) = s.max_retries; omega)

/-- C1: every state reachable through spec transitions keeps
`retry_count ≤ max_retries` (the lower bound is inherent to `Nat`); each
Reflexion pass increments `retry_count` by exactly 1; and on the run where
the generation collaborator always fails the count never exceeds the
budget and the run terminates in `failed` exactly when
`retry_count = max_retries`. -/
theorem retry_invariant (q : String) (maxR : Nat) (hmax : 0 < maxR) :
    (∀ s, ReachableFrom (create_initial_state q maxR) s →
      s.retry_count ≤ s.max_retries) ∧
    (∀ (out : ReflexionOutput) (s : ResearchState),
      (reflexion_node out s).retry_count = s.retry_count + 1) ∧
    (∀ k, (failing_step^[k] (create_initial_state q maxR)).retry_count ≤ maxR) ∧
    (failing_step^[2*maxR + 1] (create_initial_state q maxR)).current_step =
      Step.failed ∧
    (failing_step^[2*maxR + 1] (create_initial_state q maxR)).retry_count = maxR := by
  have hinit : RetryInv (create_initial_state q maxR) :=
    ⟨Nat.zero_le _, fun hc => Step.noConfusion hc⟩
  have hfinv : FailInv maxR (create_initial_state q maxR) :=
    ⟨rfl, Nat.zero_le _, fun _ => hmax⟩
  obtain ⟨m, hm⟩ : ∃ m, maxR = m + 1 :=
    ⟨maxR - 1, (Nat.succ_pred_eq_of_pos hmax).symm⟩
  have hone : failing_step^[1] (create_initial_state q maxR) =
      { create_initial_state q maxR with current_step := Step.planning } := by
    show failing_step (create_initial_state q maxR) = _
    exact failing_step_initialized rfl
  have hloop := failing_loop m
    { create_initial_state q maxR with current_step := Step.planning }
    rfl (by show 0 + (m + 1) = maxR; omega)
  have hiter : failing_step^[2*maxR + 1] (create_initial_state q maxR) =
      failing_step^[2*(m+1)]
        { create_initial_state q maxR with current_step := Step.planning } := by
    rw [show 2*maxR + 1 = 2*(m+1) + 1 by omega, Function.iterate_add_apply, hone]
  refine ⟨?_, reflexion_node_retry, ?_, ?_, ?_⟩
  · intro s hs
    exact (reachable_inv hinit hs).1
  · intro k
    exact ((failing_inv_iterate hfinv) k).2.1
  · rw [hiter]
    exact hloop.1
  · rw [hiter]
    exact hloop.2.1

/-- Witness for `retry_invariant`: with the configured budget of 3 retries
the always-failing run on the tests' query reaches `failed` with
`retry_count = 3` after 7 steps. -/
theorem retry_invariant_witness :
    (failing_step^[2*3 + 1]
      (create_initial_state "What is artificial intelligence?" 3)).current_step =
        Step.failed ∧
    (failing_step^[2*3 + 1]
      (create_initial_state "What is artificial intelligence?" 3)).retry_count = 3 :=
  ⟨(retry_invariant "What is artificial intelligence?" 3 (by decide)).2.2.2.1,
   (retry_invariant "What is artificial intelligence?" 3 (by decide)).2.2.2.2⟩

/-- Modelled from the spec (§3 Data Model, `src.state.PlanningOutput` is
absent from the tree): a Planning Output record. -/
structure PlanningOutput where
  research_plan : String
  search_queries : List String
  expected_sources : List String
  success_criteria : String
deriving DecidableEq, Repr

/-- Planning Output with type-appropriate defaults (empty string / list). -/
def defaultPlanningOutput : PlanningOutput := ⟨"", [], [], ""⟩

/-- Modelled from the spec (§4.5): the flat JSON values the generation
output uses — strings, arrays of strings, and booleans. -/
inductive JsonVal where
  | str (s : String)
  | arr (xs : List String)
  | bool (b : Bool)
deriving DecidableEq, Repr

/-- Whitespace as skipped between JSON tokens. -/
def isWs (c : Char) : Bool := c == ' ' || c == '\n' || c == '\t' || c == '\r'

/-- Skip leading whitespace. -/
def skipWs (cs : List Char) : List Char := cs.dropWhile isWs

/-- Body of a JSON string literal: everything up to the closing quote. -/
def strBody : List Char → Option (List Char × List Char)
  | [] => none
  | c :: rest =>
    if c = '"' then some ([], rest)
    else (strBody rest).map (fun p => (c :: p.1, p.2))

/-- Modelled from the spec (§4.5 "decode it into the corresponding typed
record"): parse a JSON string literal after optional whitespace. -/
def parseStrLit (cs : List Char) : Option (String × List Char) :=
  match skipWs cs with
  | '"' :: rest => (strBody rest).map (fun p => (String.mk p.1, p.2))
  | _ => none

/-- Elements of a JSON array of strings (fuelled recursion). -/
def parseArrElems : Nat → List Char → Option (List String × List Char)
  | 0, _ => none
  | fuel + 1, cs =>
    match parseStrLit cs with
    | none => none
    | some (s, rest) =>
      match skipWs rest with
      | ',' :: rest' => (parseArrElems fuel rest').map (fun p => (s :: p.1, p.2))
      | ']' :: rest' => some ([s], rest')
      | _ => none

/-- A JSON array of strings. -/
def parseArr (cs : List Char) : Option (List String × List Char) :=
  match skipWs cs with
  | '[' :: rest =>
    match skipWs rest with
    | ']' :: rest' => some ([], rest')
    | _ => parseArrElems rest.length rest
  | _ => none

/-- A JSON value: array, boolean or string. -/
def parseVal (cs : List Char) : Option (JsonVal × List Char) :=
  match skipWs cs with
  | '[' :: _ => (parseArr cs).map (fun p => (JsonVal.arr p.1, p.2))
  | 't' :: rest =>
    if rest.take 3 = ['r', 'u', 'e'] then some (JsonVal.bool true, rest.drop 3)
    else none
  | 'f' :: rest =>
    if rest.take 4 = ['a', 'l', 's', 'e'] then some (JsonVal.bool false, rest.drop 4)
    else none
  | _ => (parseStrLit cs).map (fun p => (JsonVal.str p.1, p.2))

/-- Members of a JSON object (fuelled recursion). -/
def parseMembers : Nat → List Char → Option (List (String × JsonVal) × List Char)
  | 0, _ => none
  | fuel + 1, cs =>
    match parseStrLit cs with
    | none => none
    | some (k, rest) =>
      match skipWs rest with
      | ':' :: rest' =>
        match parseVal rest' with
        | none => none
        | some (v, rest'') =>
          match skipWs rest'' with
          | ',' :: r3 => (parseMembers fuel r3).map (fun p => ((k, v) :: p.1, p.2))
          | '\x7d' :: r3 => some ([(k, v)], r3)
          | _ => none
      | _ => none

/-- A flat JSON object, as an association list of members. -/
def parseObj (cs : List Char) : Option (List (String × JsonVal) × List Char) :=
  match skipWs cs with
  | '\x7b' :: rest =>
    match skipWs rest with
    | '\x7d' :: rest' => some ([], rest')
    | _ => parseMembers rest.length rest
  | _ => none

/-- Modelled from the spec (§4.5 "first attempts to locate a fenced JSON
block in the generation text"): content to the next fence after a
three-backtick marker. -/
def takeUntilFence : List Char → Option (List Char)
  | [] => none
  | c :: rest =>
    if c = '`' ∧ rest.take 2 = ['`', '`'] then some []
    else (takeUntilFence rest).map (fun l => c :: l)

/-- Find the start of a fenced ```json block. -/
def findFenceStart : List Char → Option (List Char)
  | [] => none
  | c :: rest =>
    if c = '`' ∧ rest.take 6 = ['`', '`', 'j', 's', 'o', 'n'] then some (rest.drop 6)
    else findFenceStart rest

/-- The content of the first fenced ```json block of the text, if any. -/
def extractJsonBlock (s : String) : Option (List Char) :=
  match findFenceStart s.toList with
  | none => none
  | some rest => takeUntilFence rest

/-- First member with the given key holding a string value. -/
def jsonLookupStr (kvs : List (String × JsonVal)) (k : String) : Option String :=
  match kvs.find? (fun kv => kv.1 == k) with
  | some (_, JsonVal.str s) => some s
  | _ => none

/-- First member with the given key holding an array value. -/
def jsonLookupArr (kvs : List (String × JsonVal)) (k : String) : Option (List String) :=
  match kvs.find? (fun kv => kv.1 == k) with
  | some (_, JsonVal.arr xs) => some xs
  | _ => none

/-- First member with the given key holding a boolean value. -/
def jsonLookupBool (kvs : List (String × JsonVal)) (k : String) : Option Bool :=
  match kvs.find? (fun kv => kv.1 == k) with
  | some (_, JsonVal.bool b) => some b
  | _ => none

/-- Split text into lines at newline characters. -/
def splitLines : List Char → List (List Char)
  | [] => [[]]
  | '\n' :: rest => [] :: splitLines rest
  | c :: rest =>
    match splitLines rest with
    | [] => [[c]]
    | l :: ls => (c :: l) :: ls

/-- Strip leading and trailing whitespace. -/
def trimChars (cs : List Char) : List Char :=
  ((cs.dropWhile isWs).reverse.dropWhile isWs).reverse

/-- Modelled from the spec (§4.5 "recognizes labeled sections (e.g. a line
starting \x22Research Plan:\x22)"): the remainder of a line after a label. -/
def stripLabel (label line : List Char) : Option (List Char) :=
  let t := trimChars line
  if label.isPrefixOf t then some (trimChars (t.drop label.length)) else none

/-- First line carrying the given label, stripped. -/
def findHeader (label : List Char) : List (List Char) → Option (List Char)
  | [] => none
  | l :: ls =>
    match stripLabel label l with
    | some v => some v
    | none => findHeader label ls

/-- Modelled from the spec (§4.5 "a following block of \x22- \x22 bullet
lines as `search_queries`"): the bullet lines of the text, stripped. -/
def bulletLines (ls : List (List Char)) : List (List Char) :=
  (ls.filter (fun l => ['-', ' '].isPrefixOf (trimChars l))).map
    (fun l => trimChars ((trimChars l).drop 2))

/-- Modelled from the spec (§4.5 heuristic fallback, `src.tools` is absent
from the tree): line-based extraction for Planning Output. -/
def planningFallback (text : String) : PlanningOutput :=
  let ls := splitLines text.toList
  { research_plan := String.mk ((findHeader "Research Plan:".toList ls).getD [])
    search_queries := (bulletLines ls).map String.mk
    expected_sources := []
    success_criteria := String.mk ((findHeader "Success Criteria:".toList ls).getD []) }

/-- Modelled from the spec (§4.5, `src.tools.StructuredOutputParser.parse_planning_output`
is absent from the tree): strict fenced-JSON decode first (missing fields
get defaults), heuristic line-based fallback otherwise; total — never
fails. -/
def parse_planning_output (text : String) : PlanningOutput :=
  ((extractJsonBlock text).bind (fun block => (parseObj block).map Prod.fst)).elim
    (planningFallback text)
    (fun kvs =>
      { research_plan := (jsonLookupStr kvs "research_plan").getD ""
        search_queries := (jsonLookupArr kvs "search_queries").getD []
        expected_sources := (jsonLookupArr kvs "expected_sources").getD []
        success_criteria := (jsonLookupStr kvs "success_criteria").getD "" })

/-- Modelled from the spec (§4.5 "for Reflexion Output specifically sets
`should_retry = true` if the text contains the case-insensitive token
\x22retry\x22"): heuristic fallback for Reflexion Output. -/
def reflexionFallback (text : String) : ReflexionOutput :=
  { critique := text
    identified_issues := []
    improvement_suggestions := []
    should_retry := containsSub (lowerStr text) (lowerStr "retry") }

/-- Modelled from the spec (§4.5, `src.tools.StructuredOutputParser.parse_reflexion_output`
is absent from the tree): strict fenced-JSON decode first, heuristic
fallback otherwise. -/
def parse_reflexion_output (text : String) : ReflexionOutput :=
  ((extractJsonBlock text).bind (fun block => (parseObj block).map Prod.fst)).elim
    (reflexionFallback text)
    (fun kvs =>
      { critique := (jsonLookupStr kvs "critique").getD ""
        identified_issues := (jsonLookupArr kvs "identified_issues").getD []
        improvement_suggestions := (jsonLookupArr kvs "improvement_suggestions").getD []
        should_retry := (jsonLookupBool kvs "should_retry").getD false })

/-- JSON rendering of a string (plain contents, no escapes needed). -/
def renderStr (s : String) : List Char := '"' :: s.toList ++ ['"']

/-- JSON rendering of the elements of a nonempty array. -/
def renderElems : List String → List Char
  | [] => [']']
  | [x] => renderStr x ++ [']']
  | x :: y :: rest => renderStr x ++ ',' :: renderElems (y :: rest)

/-- JSON rendering of an array of strings. -/
def renderArr : List String → List Char
  | [] => ['[', ']']
  | x :: rest => '[' :: renderElems (x :: rest)

/-- JSON rendering of a value. -/
def renderVal : JsonVal → List Char
  | JsonVal.str s => renderStr s
  | JsonVal.arr xs => renderArr xs
  | JsonVal.bool true => ['t', 'r', 'u', 'e']
  | JsonVal.bool false => ['f', 'a', 'l', 's', 'e']

/-- JSON rendering of the members of a nonempty object. -/
def renderMembers : List (String × JsonVal) → List Char
  | [] => ['\x7d']
  | [(k, v)] => renderStr k ++ ':' :: renderVal v ++ ['\x7d']
  | (k, v) :: kv' :: rest => renderStr k ++ ':' :: renderVal v ++ ',' :: renderMembers (kv' :: rest)

/-- JSON rendering of a flat object. -/
def renderObj : List (String × JsonVal) → List Char
  | [] => ['\x7b', '\x7d']
  | kvs => '\x7b' :: renderMembers kvs

/-- Wrap a JSON body in a fenced ```json block. -/
def wrapJson (cs : List Char) : String :=
  String.mk ("```json\n".toList ++ cs ++ "\n```".toList)

/-- The JSON members a Planning Output renders to. -/
def planningMembers (r : PlanningOutput) : List (String × JsonVal) :=
  [("research_plan", JsonVal.str r.research_plan),
   ("search_queries", JsonVal.arr r.search_queries),
   ("expected_sources", JsonVal.arr r.expected_sources),
   ("success_criteria", JsonVal.str r.success_criteria)]

/-- A character that may appear verbatim inside a JSON string literal of
this grammar: not a quote, not a backslash, not a backtick. -/
def plainChar (c : Char) : Bool := !(c == '"') && !(c == '\\') && !(c == '`')

/-- A string all of whose characters are plain. -/
def plainStr (s : String) : Bool := s.toList.all plainChar

/-- A value whose payload strings are plain. -/
def plainVal : JsonVal → Bool
  | JsonVal.str s => plainStr s
  | JsonVal.arr xs => xs.all plainStr
  | JsonVal.bool _ => true

/-- A Planning Output whose fields are plain strings. -/
def plainPlanning (r : PlanningOutput) : Bool :=
  plainStr r.research_plan && r.search_queries.all plainStr &&
    r.expected_sources.all plainStr && plainStr r.success_criteria

lemma strBody_append (s rest : List Char) (hs : ∀ c ∈ s, plainChar c = true) :
    strBody (s ++ '"' :: rest) = some (s, rest) := by
  induction s with
  | nil =>
    show strBody ('"' :: rest) = some ([], rest)
    simp [strBody]
  | cons c cl ih =>
    have hc : plainChar c = true := hs c (List.mem_cons_self _ _)
    have hq : ¬ (c = '"') := by
      intro h
      subst h
      simp [plainChar] at hc
    show strBody (c :: (cl ++ '"' :: rest)) = some (c :: cl, rest)
    simp only [strBody, if_neg hq, ih (fun x hx => hs x (List.mem_cons_of_mem _ hx))]
    rfl

lemma parseStrLit_render (s : String) (rest : List Char)
    (hs : ∀ c ∈ s.toList, plainChar c = true) :
    parseStrLit (renderStr s ++ rest) = some (s, rest) := by
  have hassoc : renderStr s ++ rest = '"' :: (s.toList ++ '"' :: rest) := by
    simp [renderStr]
  rw [hassoc]
  show (strBody (s.toList ++ '"' :: rest)).map (fun p => (String.mk p.1, p.2)) =
    some (s, rest)
  rw [strBody_append s.toList rest hs]
  rfl

lemma parseArrElems_render :
    ∀ (xs : List String) (f : Nat) (rest : List Char), xs ≠ [] → xs.length ≤ f →
      (∀ s ∈ xs, ∀ c ∈ s.toList, plainChar c = true) →
      parseArrElems f (renderElems xs ++ rest) = some (xs, rest) := by
  intro xs
  induction xs with
  | nil => intro f rest h; exact absurd rfl h
  | cons x ys ih =>
    intro f rest _ hf hplain
    obtain ⟨f', rfl⟩ : ∃ f', f = f' + 1 := by
      cases f with
      | zero => simp at hf
      | succ f' => exact ⟨f', rfl⟩
    have hx : ∀ c ∈ x.toList, plainChar c = true :=
      hplain x (List.mem_cons_self _ _)
    cases ys with
    | nil =>
      have hr : renderElems [x] ++ rest = renderStr x ++ (']' :: rest) := by
        simp [renderElems]
      rw [hr]
      simp only [parseArrElems, parseStrLit_render x (']' :: rest) hx]
      rfl
    | cons y ys' =>
      have hr : renderElems (x :: y :: ys') ++ rest =
          renderStr x ++ (',' :: (renderElems (y :: ys') ++ rest)) := by
        simp [renderElems]
      rw [hr]
      simp only [parseArrElems,
        parseStrLit_render x (',' :: (renderElems (y :: ys') ++ rest)) hx]
      have hih := ih f' rest (by simp)
        (by simp only [List.length_cons] at hf ⊢; omega)
        (fun s hsm => hplain s (List.mem_cons_of_mem _ hsm))
      show (parseArrElems f' (renderElems (y :: ys') ++ rest)).map
        (fun p => (x :: p.1, p.2)) = some (x :: y :: ys', rest)
      rw [hih]
      rfl

lemma renderStr_length (s : String) : (renderStr s).length = s.toList.length + 2 := by
  simp [renderStr]

lemma renderElems_length_bound :
    ∀ xs : List String, xs ≠ [] → xs.length ≤ (renderElems xs).length := by
  intro xs
  induction xs with
  | nil => intro h; exact absurd rfl h
  | cons x ys ih =>
    intro _
    cases ys with
    | nil => simp [renderElems, renderStr]
    | cons y ys' =>
      have := ih (by simp)
      simp only [renderElems, List.length_append, List.length_cons, renderStr_length] at *
      omega

lemma parseArr_render (xs : List String) (rest : List Char)
    (hplain : ∀ s ∈ xs, ∀ c ∈ s.toList, plainChar c = true) :
    parseArr (renderArr xs ++ rest) = some (xs, rest) := by
  cases xs with
  | nil => rfl
  | cons x ys =>
    obtain ⟨q, hq⟩ : ∃ q, renderElems (x :: ys) ++ rest = '"' :: q := by
      cases ys with
      | nil => exact ⟨x.data ++ '"' :: ']' :: rest, by simp [renderElems, renderStr]⟩
      | cons y ys' =>
        exact ⟨x.data ++ '"' :: ',' :: (renderElems (y :: ys') ++ rest),
          by simp [renderElems, renderStr]⟩
    have h0 : renderArr (x :: ys) ++ rest = '[' :: '"' :: q := by
      show '[' :: renderElems (x :: ys) ++ rest = _
      rw [List.cons_append, hq]
    rw [h0]
    show parseArrElems (('"' :: q).length) ('"' :: q) = some (x :: ys, rest)
    rw [← hq]
    refine parseArrElems_render (x :: ys) _ rest (by simp) ?_ hplain
    have h1 := renderElems_length_bound (x :: ys) (by simp)
    simp only [List.length_append]
    omega

lemma parseVal_render (v : JsonVal) (rest : List Char) (hv : plainVal v = true) :
    parseVal (renderVal v ++ rest) = some (v, rest) := by
  cases v with
  | str s =>
    have hs : ∀ c ∈ s.toList, plainChar c = true := by
      intro c hc
      exact List.all_eq_true.mp hv c hc
    have hr : renderVal (JsonVal.str s) ++ rest = '"' :: (s.toList ++ '"' :: rest) := by
      simp [renderVal, renderStr]
    rw [hr]
    show (parseStrLit ('"' :: (s.toList ++ '"' :: rest))).map
      (fun p => (JsonVal.str p.1, p.2)) = some (JsonVal.str s, rest)
    rw [show ('"' :: (s.toList ++ '"' :: rest)) = renderStr s ++ rest by simp [renderStr]]
    rw [parseStrLit_render s rest hs]
    rfl
  | arr xs =>
    have hxs : ∀ s ∈ xs, ∀ c ∈ s.toList, plainChar c = true := by
      intro s hsm c hc
      exact List.all_eq_true.mp (List.all_eq_true.mp hv s hsm) c hc
    obtain ⟨q, hq⟩ : ∃ q, renderVal (JsonVal.arr xs) ++ rest = '[' :: q := by
      cases xs with
      | nil => exact ⟨']' :: rest, by simp [renderVal, renderArr]⟩
      | cons x ys => exact ⟨renderElems (x :: ys) ++ rest, by simp [renderVal, renderArr]⟩
    rw [hq]
    show (parseArr ('[' :: q)).map (fun p => (JsonVal.arr p.1, p.2)) =
      some (JsonVal.arr xs, rest)
    rw [← hq, show renderVal (JsonVal.arr xs) = renderArr xs from rfl,
      parseArr_render xs rest hxs]
    rfl
  | bool b => cases b <;> rfl

lemma parseMembers_render :
    ∀ (kvs : List (String × JsonVal)) (f : Nat) (rest : List Char), kvs ≠ [] →
      kvs.length ≤ f →
      (∀ kv ∈ kvs, (∀ c ∈ kv.1.toList, plainChar c = true) ∧ plainVal kv.2 = true) →
      parseMembers f (renderMembers kvs ++ rest) = some (kvs, rest) := by
  intro kvs
  induction kvs with
  | nil => intro f rest h; exact absurd rfl h
  | cons kv tl ih =>
    intro f rest _ hf hplain
    obtain ⟨f', rfl⟩ : ∃ f', f = f' + 1 := by
      cases f with
      | zero => simp at hf
      | succ f' => exact ⟨f', rfl⟩
    obtain ⟨k, v⟩ := kv
    have hk : ∀ c ∈ k.toList, plainChar c = true :=
      (hplain (k, v) (List.mem_cons_self _ _)).1
    have hv : plainVal v = true := (hplain (k, v) (List.mem_cons_self _ _)).2
    cases tl with
    | nil =>
      have hr : renderMembers [(k, v)] ++ rest =
          renderStr k ++ (':' :: (renderVal v ++ ('\x7d' :: rest))) := by
        simp [renderMembers]
      rw [hr]
      simp only [parseMembers,
        parseStrLit_render k (':' :: (renderVal v ++ ('\x7d' :: rest))) hk]
      show (match parseVal (renderVal v ++ ('\x7d' :: rest)) with
        | none => none
        | some (v', rest'') =>
          match skipWs rest'' with
          | ',' :: r3 => (parseMembers f' r3).map (fun p => ((k, v') :: p.1, p.2))
          | '\x7d' :: r3 => some ([(k, v')], r3)
          | _ => none) = some ([(k, v)], rest)
      rw [parseVal_render v ('\x7d' :: rest) hv]
      rfl
    | cons kv2 tl' =>
      have hr : renderMembers ((k, v) :: kv2 :: tl') ++ rest =
          renderStr k ++ (':' :: (renderVal v ++
            (',' :: (renderMembers (kv2 :: tl') ++ rest)))) := by
        simp [renderMembers]
      rw [hr]
      simp only [parseMembers,
        parseStrLit_render k
          (':' :: (renderVal v ++ (',' :: (renderMembers (kv2 :: tl') ++ rest)))) hk]
      show (match parseVal (renderVal v ++ (',' :: (renderMembers (kv2 :: tl') ++ rest))) with
        | none => none
        | some (v', rest'') =>
          match skipWs rest'' with
          | ',' :: r3 => (parseMembers f' r3).map (fun p => ((k, v') :: p.1, p.2))
          | '\x7d' :: r3 => some ([(k, v')], r3)
          | _ => none) = some ((k, v) :: kv2 :: tl', rest)
      rw [parseVal_render v (',' :: (renderMembers (kv2 :: tl') ++ rest)) hv]
      show (parseMembers f' (renderMembers (kv2 :: tl') ++ rest)).map
        (fun p => ((k, v) :: p.1, p.2)) = some ((k, v) :: kv2 :: tl', rest)
      rw [ih f' rest (by simp) (by simp only [List.length_cons] at hf ⊢; omega)
        (fun kv' hkv' => hplain kv' (List.mem_cons_of_mem _ hkv'))]
      rfl

lemma renderMembers_length_bound :
    ∀ kvs : List (String × JsonVal), kvs ≠ [] →
      kvs.length ≤ (renderMembers kvs).length := by
  intro kvs
  induction kvs with
  | nil => intro h; exact absurd rfl h
  | cons kv tl ih =>
    intro _
    obtain ⟨k, v⟩ := kv
    cases tl with
    | nil => simp [renderMembers, renderStr]
    | cons kv2 tl' =>
      have := ih (by simp)
      simp only [renderMembers, List.length_append, List.length_cons,
        renderStr_length] at *
      omega

lemma parseObj_newline (cs : List Char) : parseObj ('\n' :: cs) = parseObj cs := by
  unfold parseObj
  rw [show skipWs ('\n' :: cs) = skipWs cs from rfl]

lemma parseObj_render (kvs : List (String × JsonVal)) (rest : List Char)
    (hplain : ∀ kv ∈ kvs, (∀ c ∈ kv.1.toList, plainChar c = true) ∧
      plainVal kv.2 = true) :
    parseObj (renderObj kvs ++ rest) = some (kvs, rest) := by
  cases kvs with
  | nil => rfl
  | cons kv tl =>
    obtain ⟨k, v⟩ := kv
    obtain ⟨q, hq⟩ : ∃ q, renderMembers ((k, v) :: tl) ++ rest = '"' :: q := by
      cases tl with
      | nil =>
        exact ⟨k.data ++ '"' :: (':' :: (renderVal v ++ '\x7d' :: rest)),
          by simp [renderMembers, renderStr]⟩
      | cons kv2 tl' =>
        exact ⟨k.data ++ '"' :: (':' :: (renderVal v ++
          ',' :: (renderMembers (kv2 :: tl') ++ rest))),
          by simp [renderMembers, renderStr]⟩
    have h0 : renderObj ((k, v) :: tl) ++ rest = '\x7b' :: '"' :: q := by
      show '\x7b' :: renderMembers ((k, v) :: tl) ++ rest = _
      rw [List.cons_append, hq]
    rw [h0]
    show parseMembers (('"' :: q).length) ('"' :: q) = some ((k, v) :: tl, rest)
    rw [← hq]
    refine parseMembers_render ((k, v) :: tl) _ rest (by simp) ?_ hplain
    have h1 := renderMembers_length_bound ((k, v) :: tl) (by simp)
    simp only [List.length_append]
    omega

lemma takeUntilFence_no_backtick :
    ∀ (l r : List Char), (∀ c ∈ l, ¬ c = '`') →
      takeUntilFence (l ++ '`' :: '`' :: '`' :: r) = some l := by
  intro l
  induction l with
  | nil =>
    intro r _
    show takeUntilFence ('`' :: '`' :: '`' :: r) = some []
    simp [takeUntilFence]
  | cons c cl ih =>
    intro r hl
    have hc : ¬ c = '`' := hl c (List.mem_cons_self _ _)
    show takeUntilFence (c :: (cl ++ '`' :: '`' :: '`' :: r)) = some (c :: cl)
    have hcond : ¬ (c = '`' ∧ (cl ++ '`' :: '`' :: '`' :: r).take 2 = ['`', '`']) := by
      intro hcontra
      exact hc hcontra.1
    simp only [takeUntilFence, if_neg hcond,
      ih r (fun x hx => hl x (List.mem_cons_of_mem _ hx))]
    rfl

lemma findFenceStart_start (r : List Char) :
    findFenceStart ('`' :: '`' :: '`' :: 'j' :: 's' :: 'o' :: 'n' :: r) = some r := by
  simp [findFenceStart]

lemma extractJsonBlock_wrap (cs : List Char) (h : ∀ c ∈ cs, ¬ c = '`') :
    extractJsonBlock (wrapJson cs) = some ('\n' :: cs ++ ['\n']) := by
  unfold extractJsonBlock wrapJson
  rw [show (String.mk ("```json\n".toList ++ cs ++ "\n```".toList)).toList =
    "```json\n".toList ++ cs ++ "\n```".toList from rfl]
  rw [show "```json\n".toList ++ cs ++ "\n```".toList =
    '`' :: '`' :: '`' :: 'j' :: 's' :: 'o' :: 'n' ::
      (('\n' :: cs ++ ['\n']) ++ '`' :: '`' :: '`' :: ([] : List Char)) from by simp]
  rw [findFenceStart_start]
  show takeUntilFence (('\n' :: cs ++ ['\n']) ++ '`' :: '`' :: '`' :: ([] : List Char)) =
    some ('\n' :: cs ++ ['\n'])
  refine takeUntilFence_no_backtick ('\n' :: cs ++ ['\n']) [] ?_
  intro c hc
  rcases List.mem_cons.mp hc with h1 | h1
  · subst h1; decide
  · rcases List.mem_append.mp h1 with h2 | h2
    · exact h c h2
    · rcases List.mem_singleton.mp h2 with rfl; decide

lemma plainChar_ne_backtick {c : Char} (hc : plainChar c = true) : ¬ c = '`' := by
  intro h
  subst h
  simp [plainChar] at hc

lemma noTick_renderStr (s : String) (hs : ∀ c ∈ s.toList, plainChar c = true) :
    ∀ c ∈ renderStr s, ¬ c = '`' := by
  intro c hc
  rcases List.mem_cons.mp hc with h | h
  · subst h; decide
  · rcases List.mem_append.mp h with h1 | h1
    · exact plainChar_ne_backtick (hs c h1)
    · rcases List.mem_singleton.mp h1 with rfl; decide

lemma noTick_renderElems :
    ∀ xs : List String, (∀ s ∈ xs, ∀ c ∈ s.toList, plainChar c = true) →
      ∀ c ∈ renderElems xs, ¬ c = '`' := by
  intro xs
  induction xs with
  | nil =>
    intro _ c hc
    rcases List.mem_singleton.mp hc with rfl; decide
  | cons x ys ih =>
    intro hplain c hc
    have hx := noTick_renderStr x (hplain x (List.mem_cons_self _ _))
    cases ys with
    | nil =>
      rcases List.mem_append.mp hc with h1 | h1
      · exact hx c h1
      · rcases List.mem_singleton.mp h1 with rfl; decide
    | cons y ys' =>
      rcases List.mem_append.mp hc with h1 | h1
      · exact hx c h1
      · rcases List.mem_cons.mp h1 with h2 | h2
        · subst h2; decide
        · exact ih (fun s hsm => hplain s (List.mem_cons_of_mem _ hsm)) c h2

lemma noTick_renderVal (v : JsonVal) (hv : plainVal v = true) :
    ∀ c ∈ renderVal v, ¬ c = '`' := by
  cases v with
  | str s =>
    exact noTick_renderStr s (fun c hc => List.all_eq_true.mp hv c hc)
  | arr xs =>
    intro c hc
    cases xs with
    | nil =>
      rcases List.mem_cons.mp hc with h | h
      · subst h; decide
      · rcases List.mem_singleton.mp h with rfl; decide
    | cons x ys =>
      rcases List.mem_cons.mp hc with h | h
      · subst h; decide
      · refine noTick_renderElems (x :: ys) ?_ c h
        intro s hsm c' hc'
        exact List.all_eq_true.mp (List.all_eq_true.mp hv s hsm) c' hc'
  | bool b =>
    cases b <;> (intro c hc; fin_cases hc <;> decide)

lemma noTick_renderMembers :
    ∀ kvs : List (String × JsonVal),
      (∀ kv ∈ kvs, (∀ c ∈ kv.1.toList, plainChar c = true) ∧ plainVal kv.2 = true) →
      ∀ c ∈ renderMembers kvs, ¬ c = '`' := by
  intro kvs
  induction kvs with
  | nil =>
    intro _ c hc
    rcases List.mem_singleton.mp hc with rfl; decide
  | cons kv tl ih =>
    intro hplain c hc
    obtain ⟨k, v⟩ := kv
    have hk := noTick_renderStr k (hplain (k, v) (List.mem_cons_self _ _)).1
    have hv := noTick_renderVal v (hplain (k, v) (List.mem_cons_self _ _)).2
    cases tl with
    | nil =>
      rcases List.mem_append.mp hc with h1 | h1
      · rcases List.mem_append.mp h1 with h2 | h2
        · exact hk c h2
        · rcases List.mem_cons.mp h2 with h3 | h3
          · subst h3; decide
          · exact hv c h3
      · rcases List.mem_singleton.mp h1 with rfl; decide
    | cons kv2 tl' =>
      rcases List.mem_append.mp hc with h1 | h1
      · rcases List.mem_append.mp h1 with h2 | h2
        · exact hk c h2
        · rcases List.mem_cons.mp h2 with h3 | h3
          · subst h3; decide
          · exact hv c h3
      · rcases List.mem_cons.mp h1 with h2 | h2
        · subst h2; decide
        · exact ih (fun kv' hkv' => hplain kv' (List.mem_cons_of_mem _ hkv')) c h2

lemma noTick_renderObj (kvs : List (String × JsonVal))
    (hplain : ∀ kv ∈ kvs, (∀ c ∈ kv.1.toList, plainChar c = true) ∧
      plainVal kv.2 = true) :
    ∀ c ∈ renderObj kvs, ¬ c = '`' := by
  intro c hc
  cases kvs with
  | nil =>
    rcases List.mem_cons.mp hc with h | h
    · subst h; decide
    · rcases List.mem_singleton.mp h with rfl; decide
  | cons kv tl =>
    rcases List.mem_cons.mp hc with h | h
    · subst h; decide
    · exact noTick_renderMembers (kv :: tl) hplain c h

lemma planningMembers_plain (r : PlanningOutput) (h : plainPlanning r = true) :
    ∀ kv ∈ planningMembers r,
      (∀ c ∈ kv.1.toList, plainChar c = true) ∧ plainVal kv.2 = true := by
  simp only [plainPlanning, Bool.and_eq_true] at h
  obtain ⟨⟨⟨h1, h2⟩, h3⟩, h4⟩ := h
  intro kv hkv
  simp only [planningMembers, List.mem_cons, List.not_mem_nil, or_false] at hkv
  rcases hkv with rfl | rfl | rfl | rfl
  · exact ⟨fun c hc => List.all_eq_true.mp
      (show ("research_plan" : String).toList.all plainChar = true by decide) c hc, h1⟩
  · exact ⟨fun c hc => List.all_eq_true.mp
      (show ("search_queries" : String).toList.all plainChar = true by decide) c hc, h2⟩
  · exact ⟨fun c hc => List.all_eq_true.mp
      (show ("expected_sources" : String).toList.all plainChar = true by decide) c hc, h3⟩
  · exact ⟨fun c hc => List.all_eq_true.mp
      (show ("success_criteria" : String).toList.all plainChar = true by decide) c hc, h4⟩

/-- C8: the Structured Output Parser is total: a fenced JSON block carrying
the four planning fields parses back to exactly those fields (round trip
over the rendered JSON, for fields of plain characters); a field missing
from the JSON gets its type-appropriate default; and a text with no JSON
block and no recognizable labeled headers yields the default-valued record
rather than a failure. -/
theorem parse_planning_output_spec :
    (∀ r : PlanningOutput, plainPlanning r = true →
      parse_planning_output (wrapJson (renderObj (planningMembers r))) = r) ∧
    (∀ text : String, extractJsonBlock text = none →
      findHeader "Research Plan:".toList (splitLines text.toList) = none →
      bulletLines (splitLines text.toList) = [] →
      findHeader "Success Criteria:".toList (splitLines text.toList) = none →
      parse_planning_output text = defaultPlanningOutput) ∧
    parse_planning_output
        (wrapJson (renderObj [("research_plan", JsonVal.str "Only plan")])) =
      { research_plan := "Only plan", search_queries := [], expected_sources := [],
        success_criteria := "" } := by
  refine ⟨?_, ?_, ?_⟩
  · intro r hr
    have hmem := planningMembers_plain r hr
    have hticks := noTick_renderObj (planningMembers r) hmem
    have key : (extractJsonBlock (wrapJson (renderObj (planningMembers r)))).bind
        (fun block => (parseObj block).map Prod.fst) = some (planningMembers r) := by
      rw [extractJsonBlock_wrap _ hticks]
      show (parseObj ('\n' :: renderObj (planningMembers r) ++ ['\n'])).map Prod.fst =
        some (planningMembers r)
      rw [show ('\n' :: renderObj (planningMembers r) ++ ['\n']) =
        '\n' :: (renderObj (planningMembers r) ++ ['\n']) from rfl]
      rw [parseObj_newline, parseObj_render _ _ hmem]
      rfl
    unfold parse_planning_output
    rw [key]
    rfl
  · intro text h0 h1 h2 h3
    unfold parse_planning_output
    rw [h0]
    show planningFallback text = defaultPlanningOutput
    simp only [planningFallback]
    rw [h1, h2, h3]
    rfl
  · decide

/-- Witness for `parse_planning_output_spec`: round trip at the test
suite's planning record, and the default fallback at an unstructured
text. -/
theorem parse_planning_output_spec_witness :
    parse_planning_output (wrapJson (renderObj (planningMembers
      ⟨"Comprehensive AI research approach",
       ["AI definition", "AI applications", "AI future"],
       ["academic papers", "tech articles"],
       "Complete understanding of AI"⟩))) =
      ⟨"Comprehensive AI research approach",
       ["AI definition", "AI applications", "AI future"],
       ["academic papers", "tech articles"],
       "Complete understanding of AI"⟩ ∧
    parse_planning_output "no structured content here" = defaultPlanningOutput :=
  ⟨parse_planning_output_spec.1 _ (by decide),
   parse_planning_output_spec.2.1 "no structured content here"
     (by decide) (by decide) (by decide) (by decide)⟩

/-- C9: whenever the Reflexion parser takes its heuristic fallback (the
strict fenced-JSON decode yields nothing), `should_retry` is true exactly
when the text contains the token "retry" case-insensitively. -/
theorem parse_reflexion_fallback (text : String)
    (h : (extractJsonBlock text).bind
      (fun block => (parseObj block).map Prod.fst) = none) :
    (parse_reflexion_output text).should_retry = true ↔
      lowerStr "retry" <:+: lowerStr text := by
  unfold parse_reflexion_output
  rw [h]
  show containsSub (lowerStr text) (lowerStr "retry") = true ↔ _
  exact containsSub_iff _ _

/-- Witness for `parse_reflexion_fallback`: the test suite's reflexion
text, which carries the token "retry", yields `should_retry = true`. -/
theorem parse_reflexion_fallback_witness :
    (parse_reflexion_output
      "The previous attempt failed. We should retry with broader queries.").should_retry
      = true :=
  (parse_reflexion_fallback
    "The previous attempt failed. We should retry with broader queries."
    (by decide)).mpr ((containsSub_iff _ _).mp (by decide))
